import Mathlib

/-!
Verification of the wordpal core (src/db.rs, src/rng.rs).

Strings are embedded as `List Char`.  Machine integers (`u64`, `usize`,
both 64-bit) are embedded as `Nat` with explicit `% 2 ^ 64` where the
source arithmetic can wrap.  A Rust panic (out-of-bounds indexing) is
embedded as `Option.none`.  The clock (`SystemTime::now` measured in
seconds since the epoch) is an explicit `now : Nat` parameter.  The
backing file is embedded as its contents, a `List Char` passed in and
out of the operations that touch it.
-/

namespace Wordpal

/-- `DAY` from src/db.rs: 24 hours in seconds. -/
def DAY : Nat := 86400

/-- `TIMEOUT_DELAYS` from src/db.rs: the word timeout values (in days). -/
def TIMEOUT_DELAYS : List Nat := [0, 1, 7, 14, 30]

/-- `DELIMITER` from src/db.rs: the column delimiter `";; "` (two
semicolons followed by a space). -/
def DELIM : List Char := [';', ';', ' ']

/-- `Entry` from src/db.rs. -/
structure Entry where
  word : List Char
  tr_word : List Char
  cur_iter : Nat
  timeout : Nat
  timed_out : Bool
deriving DecidableEq

/-- `Rng` from src/rng.rs: a deterministic xorshift PRNG over `u64`. -/
structure Rng where
  state : Nat
deriving DecidableEq

/-- `Rng::new` from src/rng.rs: the fixed hardcoded seed. -/
def Rng.new : Rng := ⟨0x1337133713371337⟩

/-- `Rng::rand` from src/rng.rs: returns the current state and advances
the state by three xorshift steps (u64 shifts discard overflowing bits,
hence the `% 2 ^ 64`). -/
def Rng.rand (r : Rng) : Nat × Rng :=
  let ret := r.state
  let s1 := (r.state ^^^ (r.state <<< 13)) % 2 ^ 64
  let s2 := (s1 ^^^ (s1 >>> 17)) % 2 ^ 64
  let s3 := (s2 ^^^ (s2 <<< 43)) % 2 ^ 64
  (ret, ⟨s3⟩)

/-- `Rng::range` from src/rng.rs: `(self.rand() % (max - min + 1)) + min`.
The sole caller passes `min = 0 ≤ max`, where the `Nat` arithmetic
coincides with the `u64` arithmetic of the source. -/
def Rng.range (r : Rng) (min max : Nat) : Nat × Rng :=
  let (v, r') := r.rand
  ((v % (max - min + 1)) + min, r')

/-- Splitting on the three-character delimiter `";; "`, the embedding of
`line.split(DELIMITER)` from `Entry::parse_from_line`: cut at each
(leftmost-first) occurrence of the delimiter. -/
def splitDelim : List Char → List (List Char)
  | [] => [[]]
  | [c] => [[c]]
  | [c1, c2] => [[c1, c2]]
  | c1 :: c2 :: c3 :: rest =>
    if c1 = ';' ∧ c2 = ';' ∧ c3 = ' ' then
      [] :: splitDelim rest
    else
      match splitDelim (c2 :: c3 :: rest) with
      | [] => [[c1]]
      | p :: ps => (c1 :: p) :: ps

/-- Splitting on a newline character, the first half of the embedding of
`str::lines` used by `Database::open`. -/
def splitNl : List Char → List (List Char)
  | [] => [[]]
  | c :: rest =>
    if c = '\n' then
      [] :: splitNl rest
    else
      match splitNl rest with
      | [] => [[c]]
      | p :: ps => (c :: p) :: ps

/-- Drop one trailing carriage return, as `str::lines` does per line. -/
def stripCR (l : List Char) : List Char :=
  match l.getLast? with
  | none => l
  | some c => if c = '\r' then l.dropLast else l

/-- The embedding of `str::lines`: split on `'\n'`, drop the final empty
piece produced by a trailing newline, strip one trailing `'\r'` per line. -/
def rustLines (s : List Char) : List (List Char) :=
  let parts := splitNl s
  let parts :=
    match parts.getLast? with
    | none => parts
    | some l => if l = [] then parts.dropLast else parts
  parts.map stripCR

/-- The embedding of `str::parse::<u64>` (and `parse::<usize>`, also
64-bit): an optional leading `'+'`, then one or more ASCII digits, value
below `2 ^ 64`. -/
def parseU64 (s : List Char) : Option Nat :=
  let t :=
    match s with
    | [] => s
    | c :: r => if c = '+' then r else s
  if t = [] then none
  else if t.all (fun c => c.isDigit) then
    let v := t.foldl (fun a c => a * 10 + (c.toNat - 48)) 0
    if v < 2 ^ 64 then some v else none
  else none

/-- Decimal digits of `n` in printing order, with fuel (`fuel > n`
suffices); the embedding of `format!("{}", n)` for an unsigned integer. -/
def natReprGo : Nat → Nat → List Char → List Char
  | 0, _, acc => acc
  | fuel + 1, n, acc =>
    let d := Char.ofNat (48 + n % 10)
    if n < 10 then d :: acc else natReprGo fuel (n / 10) (d :: acc)

/-- The embedding of `format!("{}", n)` for `u64`/`usize` values. -/
def natRepr (n : Nat) : List Char :=
  natReprGo (n + 1) n []

/-- `Entry::parse_from_line` from src/db.rs: split on the delimiter;
two fields give a fresh entry, four fields parse the iteration index and
the timeout and compare the timeout with the current time; any other
field count or a failed integer parse gives `None`. -/
def Entry.parse_from_line (line : List Char) (now : Nat) : Option Entry :=
  match splitDelim line with
  | [word, tr_word] =>
    some { word, tr_word, cur_iter := 0, timeout := 0, timed_out := false }
  | [word, tr_word, s3, s4] =>
    match parseU64 s3, parseU64 s4 with
    | some cur_iter, some timeout =>
      some { word, tr_word, cur_iter, timeout, timed_out := decide (timeout > now) }
    | _, _ => none
  | _ => none

/-- `Entry::db_repr` from src/db.rs: join the four fields with the
delimiter. -/
def Entry.db_repr (e : Entry) : List Char :=
  e.word ++ (DELIM ++ (e.tr_word ++ (DELIM ++
    (natRepr e.cur_iter ++ (DELIM ++ natRepr e.timeout)))))

/-- `Entry::update_timeout` from src/db.rs.  A timed-out entry is left
unchanged.  Otherwise `cur_iter` is stepped (the increment wraps like the
source's `usize`), and `TIMEOUT_DELAYS[cur_iter]` is read: an
out-of-bounds index is the source's panic, embedded as `none`. -/
def Entry.update_timeout (e : Entry) (next : Bool) (now : Nat) : Option Entry :=
  if e.timed_out then
    some e
  else
    let cur_iter :=
      if next then
        if e.cur_iter ≠ TIMEOUT_DELAYS.length - 1 then (e.cur_iter + 1) % 2 ^ 64
        else e.cur_iter
      else
        if e.cur_iter ≠ 0 then e.cur_iter - 1 else e.cur_iter
    match TIMEOUT_DELAYS.get? cur_iter with
    | none => none
    | some d =>
      some { e with cur_iter := cur_iter, timeout := now + d * DAY, timed_out := true }

/-- `Database` from src/db.rs, without the file handle: the file's
contents are passed explicitly to the operations that use them. -/
structure Database where
  usable : List Entry
  unusable : List Entry
  rng : Rng
deriving DecidableEq

/-- `Database::open` from src/db.rs: parse each line of the file's
contents, pushing timed-out entries to `unusable` and the rest to
`usable`; undecodable lines are dropped. -/
def Database.openDb (contents : List Char) (now : Nat) : Database :=
  let step := fun (acc : List Entry × List Entry) (line : List Char) =>
    match Entry.parse_from_line line now with
    | some entry =>
      if entry.timed_out then (acc.1, acc.2 ++ [entry]) else (acc.1 ++ [entry], acc.2)
    | none => acc
  let parts := (rustLines contents).foldl step ([], [])
  { usable := parts.1, unusable := parts.2, rng := Rng.new }

/-- `Database::write_db` from src/db.rs: seek to the start of the file
and write every entry (usable first, then unusable) as a
newline-terminated line.  The source never truncates, so bytes of the
old contents beyond what is written survive. -/
def Database.write_db (db : Database) (oldContent : List Char) : List Char :=
  let written := (db.usable ++ db.unusable).foldl (fun acc e => acc ++ e.db_repr ++ ['\n']) []
  written ++ oldContent.drop written.length

/-- `Database::random_entry` from src/db.rs. -/
def Database.random_entry (db : Database) : Option (Entry × Nat) × Database :=
  if db.usable.length = 0 then
    (none, db)
  else
    let (num, rng') := db.rng.range 0 (db.usable.length - 1)
    match db.usable.get? num with
    | some entry => (some (entry, num), { db with rng := rng' })
    | none => (none, { db with rng := rng' })

/-- `Vec::swap_remove`: replace element `i` with the last element and
drop the last element (callers only use `i < l.length`). -/
def swapRemove (l : List α) (i : Nat) : List α :=
  match l.getLast? with
  | none => l
  | some last => (l.set i last).dropLast

/-- `Database::update_timeout` from src/db.rs: out-of-range indices are
ignored; otherwise update the entry in place, push a clone to
`unusable`, and `swap_remove` it from `usable`.  A panic from
`Entry::update_timeout` propagates as `none`. -/
def Database.update_timeout (db : Database) (index : Nat) (next : Bool) (now : Nat) :
    Option Database :=
  if index ≥ db.usable.length then
    some db
  else
    match db.usable.get? index with
    | none => some db
    | some e =>
      match e.update_timeout next now with
      | none => none
      | some e' =>
        some { db with
          usable := swapRemove (db.usable.set index e') index,
          unusable := db.unusable ++ [e'] }

/-- A sequence of calls made to the RNG: `rand`, or `range min max`. -/
inductive RngCall where
  | rand : RngCall
  | range : Nat → Nat → RngCall
deriving DecidableEq

/-- Run a call sequence against an RNG, collecting the outputs. -/
def runCalls : Rng → List RngCall → List Nat
  | _, [] => []
  | r, c :: cs =>
    let (v, r') :=
      match c with
      | RngCall.rand => r.rand
      | RngCall.range mn mx => r.range mn mx
    v :: runCalls r' cs

/-- A concrete database file: a malformed line (five fields, dropped on
load) followed by one valid tracked line.  Rewriting the single
surviving entry produces fewer bytes than the file held, so the
untruncated tail (which happens to parse as further entries) survives a
`write_db`. -/
def c1Contents : List Char := ("z;; z;; z;; zzq;; r\na;; b;; 1;; 2\n").data

/-- A concrete store with two usable entries and an empty pending
partition. -/
def c6db : Database :=
  ⟨[⟨("a").data, ("a").data, 0, 0, false⟩, ⟨("b").data, ("b").data, 0, 0, false⟩],
    [], Rng.new⟩

/-- A concrete store with one usable entry, used to exercise the
random-selection path. -/
def oneEntryDb : Database :=
  ⟨[⟨("w").data, ("x").data, 0, 0, false⟩], [], Rng.new⟩

end Wordpal

namespace Wordpal

/-! ### Structure of `splitDelim`

The delimiter `";; "` has no self-overlap: no proper nonempty suffix of
it is also a prefix of it.  Hence occurrences cannot straddle a piece
boundary, and splitting is well behaved under concatenation. -/

theorem splitDelim_ne_nil (s : List Char) : splitDelim s ≠ [] := by
  rcases s with _ | ⟨c1, _ | ⟨c2, _ | ⟨c3, rest⟩⟩⟩
  · simp [splitDelim]
  · simp [splitDelim]
  · simp [splitDelim]
  · simp only [splitDelim]
    split
    · simp
    · split <;> simp

theorem fs_plus :
    ∀ (n : Nat) (s : List Char), s.length ≤ n → ∀ p ps, splitDelim s = p :: ps →
      splitDelim p = [p] ∧
        ((ps = [] ∧ s = p) ∨
          ∃ q, s = p ++ ';' :: ';' :: ' ' :: q ∧ splitDelim q = ps) := by
  intro n
  induction n with
  | zero =>
    intro s hs p ps h
    have hnil : s = [] := List.length_eq_zero.mp (Nat.le_zero.mp hs)
    subst hnil
    injection h with h1 h2
    subst h1
    subst h2
    exact ⟨rfl, Or.inl ⟨rfl, rfl⟩⟩
  | succ n ih =>
    intro s hs p ps h
    rcases s with _ | ⟨c1, _ | ⟨c2, _ | ⟨c3, rest⟩⟩⟩
    · injection h with h1 h2
      subst h1
      subst h2
      exact ⟨rfl, Or.inl ⟨rfl, rfl⟩⟩
    · injection h with h1 h2
      subst h1
      subst h2
      exact ⟨rfl, Or.inl ⟨rfl, rfl⟩⟩
    · injection h with h1 h2
      subst h1
      subst h2
      exact ⟨rfl, Or.inl ⟨rfl, rfl⟩⟩
    · simp only [splitDelim] at h
      by_cases hd : c1 = ';' ∧ c2 = ';' ∧ c3 = ' '
      · rw [if_pos hd] at h
        injection h with h1 h2
        subst h1
        refine ⟨rfl, Or.inr ⟨rest, ?_, h2⟩⟩
        obtain ⟨rfl, rfl, rfl⟩ := hd
        simp
      · rw [if_neg hd] at h
        rcases hsp : splitDelim (c2 :: c3 :: rest) with _ | ⟨p', ps'⟩
        · exact absurd hsp (splitDelim_ne_nil _)
        · rw [hsp] at h
          injection h with h1 h2
          have hlen : (c2 :: c3 :: rest).length ≤ n := by
            simp only [List.length_cons] at hs ⊢
            omega
          obtain ⟨hfree', hcase⟩ := ih (c2 :: c3 :: rest) hlen p' ps' hsp
          subst h1
          subst h2
          rcases hcase with ⟨hps', hp'⟩ | ⟨q, hq, hsq⟩
          · subst hp'
            subst hps'
            refine ⟨?_, Or.inl ⟨rfl, rfl⟩⟩
            simp only [splitDelim]
            rw [if_neg hd, hsp]
          · have hfree : splitDelim (c1 :: p') = [c1 :: p'] := by
              rcases p' with _ | ⟨d1, _ | ⟨d2, p''⟩⟩
              · simp [splitDelim]
              · simp [splitDelim]
              · simp only [List.cons_append] at hq
                injection hq with e1 hq'
                injection hq' with e2 _
                subst e1
                subst e2
                simp only [splitDelim]
                rw [if_neg hd, hfree']
            refine ⟨hfree, Or.inr ⟨q, ?_, hsq⟩⟩
            rw [List.cons_append, hq]

theorem pieces_free_aux :
    ∀ (n : Nat) (s : List Char), s.length ≤ n → ∀ p, p ∈ splitDelim s → splitDelim p = [p] := by
  intro n
  induction n with
  | zero =>
    intro s hs p hp
    have hnil : s = [] := List.length_eq_zero.mp (Nat.le_zero.mp hs)
    subst hnil
    simp only [splitDelim, List.mem_singleton] at hp
    subst hp
    rfl
  | succ n ih =>
    intro s hs p hp
    rcases hsp : splitDelim s with _ | ⟨p0, ps⟩
    · exact absurd hsp (splitDelim_ne_nil _)
    · obtain ⟨hfree, hcase⟩ := fs_plus (n + 1) s hs p0 ps hsp
      rw [hsp] at hp
      rcases List.mem_cons.mp hp with rfl | hmem
      · exact hfree
      · rcases hcase with ⟨hps, _⟩ | ⟨q, hq, hsq⟩
        · subst hps
          simp at hmem
        · have hqlen : q.length ≤ n := by
            have := congrArg List.length hq
            simp only [List.length_append, List.length_cons] at this
            omega
          exact ih q hqlen p (by rw [hsq]; exact hmem)

/-- Every piece produced by `splitDelim` contains no delimiter
occurrence, i.e. splits into itself alone. -/
theorem piece_free (s p : List Char) (hp : p ∈ splitDelim s) : splitDelim p = [p] :=
  pieces_free_aux s.length s le_rfl p hp


theorem splitDelim_cons4 (c1 c2 c3 : Char) (rest : List Char) :
    splitDelim (c1 :: c2 :: c3 :: rest) =
      if c1 = ';' ∧ c2 = ';' ∧ c3 = ' ' then
        [] :: splitDelim rest
      else
        match splitDelim (c2 :: c3 :: rest) with
        | [] => [[c1]]
        | p :: ps => (c1 :: p) :: ps := by
  rw [splitDelim]

/-- Appending the delimiter and a remainder after an occurrence-free
piece splits as that piece followed by the split of the remainder. -/
theorem free_append :
    ∀ (w rest : List Char), splitDelim w = [w] →
      splitDelim (w ++ ';' :: ';' :: ' ' :: rest) = w :: splitDelim rest := by
  intro w
  induction w with
  | nil =>
    intro rest _
    rw [List.nil_append, splitDelim_cons4, if_pos ⟨rfl, rfl, rfl⟩]
  | cons c w' ih =>
    intro rest hw
    rcases w' with _ | ⟨c2, _ | ⟨c3, w''⟩⟩
    · show splitDelim (c :: ';' :: ';' :: ' ' :: rest) = [c] :: splitDelim rest
      rw [splitDelim_cons4, if_neg (by simp), splitDelim_cons4, if_pos ⟨rfl, rfl, rfl⟩]
    · show splitDelim (c :: c2 :: ';' :: ';' :: ' ' :: rest) = [c, c2] :: splitDelim rest
      have step : splitDelim (c2 :: ';' :: ';' :: ' ' :: rest) = [c2] :: splitDelim rest := by
        have := ih rest rfl
        rwa [List.singleton_append] at this
      rw [splitDelim_cons4, if_neg (by simp), step]
    · by_cases hd : c = ';' ∧ c2 = ';' ∧ c3 = ' '
      · exfalso
        rw [splitDelim_cons4, if_pos hd] at hw
        injection hw with h1 _
        exact List.cons_ne_nil _ _ h1.symm
      · have hw'' : splitDelim (c2 :: c3 :: w'') = [c2 :: c3 :: w''] := by
          rw [splitDelim_cons4, if_neg hd] at hw
          rcases hsp : splitDelim (c2 :: c3 :: w'') with _ | ⟨p, ps⟩
          · exact absurd hsp (splitDelim_ne_nil _)
          · rw [hsp] at hw
            simp only at hw
            injection hw with h1 h2
            injection h1 with _ h3
            rw [h3, h2]
        have step := ih rest hw''
        simp only [List.cons_append] at step ⊢
        rw [splitDelim_cons4, if_neg hd, step]

/-- A string with no semicolon has no delimiter occurrence. -/
theorem no_semi_free :
    ∀ s : List Char, (∀ c ∈ s, c ≠ ';') → splitDelim s = [s] := by
  intro s
  induction s with
  | nil => intro _; rfl
  | cons c1 t ih =>
    intro hs
    rcases t with _ | ⟨c2, _ | ⟨c3, rest⟩⟩
    · rfl
    · rfl
    · have hd : ¬(c1 = ';' ∧ c2 = ';' ∧ c3 = ' ') := by
        intro h
        exact hs c1 (List.mem_cons_self _ _) h.1
      have ht : splitDelim (c2 :: c3 :: rest) = [c2 :: c3 :: rest] :=
        ih (fun c hc => hs c (List.mem_cons_of_mem _ hc))
      rw [splitDelim_cons4, if_neg hd, ht]

/-! ### Decimal printing and parsing -/

theorem natReprGo_succ (fuel n : Nat) (acc : List Char) :
    natReprGo (fuel + 1) n acc =
      if n < 10 then Char.ofNat (48 + n % 10) :: acc
      else natReprGo fuel (n / 10) (Char.ofNat (48 + n % 10) :: acc) := rfl

theorem natReprGo_eq :
    ∀ (m fuel : Nat) (acc : List Char), m < fuel →
      natReprGo fuel m acc = natRepr m ++ acc := by
  intro m
  induction m using Nat.strong_induction_on with
  | _ m ih =>
    intro fuel acc hf
    rcases fuel with _ | fuel
    · omega
    · by_cases h10 : m < 10
      · rw [natReprGo_succ, if_pos h10, natRepr, natReprGo_succ, if_pos h10,
          List.singleton_append]
      · have hdiv : m / 10 < m := Nat.div_lt_self (by omega) (by decide)
        have hf1 : m / 10 < fuel := by omega
        have hrhs : natRepr m = natRepr (m / 10) ++ [Char.ofNat (48 + m % 10)] := by
          rw [natRepr, natReprGo_succ, if_neg h10, ih (m / 10) hdiv m _ hdiv]
        rw [natReprGo_succ, if_neg h10, ih (m / 10) hdiv fuel _ hf1, hrhs,
          List.append_assoc, List.singleton_append]

theorem natRepr_lt10 (n : Nat) (h : n < 10) :
    natRepr n = [Char.ofNat (48 + n % 10)] := by
  rw [natRepr, natReprGo_succ, if_pos h]

theorem natRepr_ge10 (n : Nat) (h : 10 ≤ n) :
    natRepr n = natRepr (n / 10) ++ [Char.ofNat (48 + n % 10)] := by
  rw [natRepr, natReprGo_succ, if_neg (Nat.not_lt.mpr h),
    natReprGo_eq (n / 10) n _ (Nat.div_lt_self (by omega) (by decide))]

theorem digitChar_facts (k : Nat) (h : k < 10) :
    (Char.ofNat (48 + k)).isDigit = true ∧ (Char.ofNat (48 + k)).toNat = 48 + k ∧
      Char.ofNat (48 + k) ≠ ';' ∧ Char.ofNat (48 + k) ≠ '+' := by
  interval_cases k <;> exact ⟨by decide, by decide, by decide, by decide⟩

theorem natRepr_digits :
    ∀ n : Nat, ∀ c ∈ natRepr n, c.isDigit = true := by
  intro n
  induction n using Nat.strong_induction_on with
  | _ n ih =>
    intro c hc
    by_cases h10 : n < 10
    · rw [natRepr_lt10 n h10] at hc
      rw [List.mem_singleton.mp hc]
      exact (digitChar_facts _ (Nat.mod_lt _ (by decide))).1
    · rw [natRepr_ge10 n (Nat.le_of_not_lt h10)] at hc
      rcases List.mem_append.mp hc with hm | hm
      · exact ih (n / 10) (Nat.div_lt_self (by omega) (by decide)) c hm
      · rw [List.mem_singleton.mp hm]
        exact (digitChar_facts _ (Nat.mod_lt _ (by decide))).1

theorem natRepr_ne_nil (n : Nat) : natRepr n ≠ [] := by
  by_cases h10 : n < 10
  · rw [natRepr_lt10 n h10]
    simp
  · rw [natRepr_ge10 n (Nat.le_of_not_lt h10)]
    simp

theorem natRepr_foldl :
    ∀ (n a : Nat), (natRepr n).foldl (fun a c => a * 10 + (c.toNat - 48)) a
      = a * 10 ^ (natRepr n).length + n := by
  intro n
  induction n using Nat.strong_induction_on with
  | _ n ih =>
    intro a
    by_cases h10 : n < 10
    · rw [natRepr_lt10 n h10]
      simp only [List.foldl_cons, List.foldl_nil, List.length_singleton,
        (digitChar_facts (n % 10) (Nat.mod_lt _ (by decide))).2.1, pow_one]
      rw [Nat.mod_eq_of_lt h10]
      omega
    · have h10' : 10 ≤ n := Nat.le_of_not_lt h10
      have hdiv : n / 10 < n := Nat.div_lt_self (by omega) (by decide)
      have hmod := Nat.div_add_mod n 10
      rw [natRepr_ge10 n h10', List.foldl_append, List.length_append,
        ih (n / 10) hdiv a]
      simp only [List.foldl_cons, List.foldl_nil, List.length_singleton,
        (digitChar_facts (n % 10) (Nat.mod_lt _ (by decide))).2.1]
      rw [pow_succ, Nat.add_sub_cancel_left]
      set L := (natRepr (n / 10)).length with hL
      calc (a * 10 ^ L + n / 10) * 10 + n % 10
          = a * (10 ^ L * 10) + (10 * (n / 10) + n % 10) := by ring
        _ = a * (10 ^ L * 10) + n := by rw [hmod]

theorem parseU64_natRepr (n : Nat) (h : n < 2 ^ 64) : parseU64 (natRepr n) = some n := by
  have hfold := natRepr_foldl n 0
  rw [Nat.zero_mul, Nat.zero_add] at hfold
  have hdig : (natRepr n).all (fun c => c.isDigit) = true :=
    List.all_eq_true.mpr (fun c hc => natRepr_digits n c hc)
  rcases hr : natRepr n with _ | ⟨c, t⟩
  · exact absurd hr (natRepr_ne_nil n)
  · have hc : c.isDigit = true := natRepr_digits n c (by rw [hr]; exact List.mem_cons_self _ _)
    have hcp : ¬(c = '+') := by
      intro h'
      rw [h'] at hc
      exact absurd hc (by decide)
    rw [hr] at hfold hdig
    simp only [parseU64, if_neg hcp, if_neg (List.cons_ne_nil c t), hdig, if_pos trivial,
      hfold, if_pos h]

theorem natRepr_free (n : Nat) : splitDelim (natRepr n) = [natRepr n] := by
  refine no_semi_free _ (fun c hc h => ?_)
  have hd := natRepr_digits n c hc
  rw [h] at hd
  exact absurd hd (by decide)

/-! ### The encode/decode round trip -/

theorem splitDelim_four (w t a b : List Char)
    (hw : splitDelim w = [w]) (ht : splitDelim t = [t])
    (ha : splitDelim a = [a]) (hb : splitDelim b = [b]) :
    splitDelim (w ++ (DELIM ++ (t ++ (DELIM ++ (a ++ (DELIM ++ b)))))) = [w, t, a, b] := by
  have h3 : splitDelim (a ++ ';' :: ';' :: ' ' :: b) = [a, b] := by
    rw [free_append a b ha, hb]
  have h2 : splitDelim (t ++ ';' :: ';' :: ' ' :: (a ++ (DELIM ++ b))) = [t, a, b] := by
    rw [free_append t _ ht]
    show _ :: splitDelim (a ++ ';' :: ';' :: ' ' :: b) = _
    rw [h3]
  show splitDelim (w ++ ';' :: ';' :: ' ' :: (t ++ (DELIM ++ (a ++ (DELIM ++ b))))) = _
  rw [free_append w _ hw]
  show _ :: splitDelim (t ++ ';' :: ';' :: ' ' :: (a ++ (DELIM ++ b))) = _
  rw [h2]

theorem parseU64_lt : ∀ (s : List Char) (v : Nat), parseU64 s = some v → v < 2 ^ 64 := by
  intro s v h
  simp only [parseU64] at h
  split at h
  · simp at h
  · split at h
    · split at h
      · rename_i hlt
        rw [Option.some.injEq] at h
        omega
      · simp at h
    · simp at h

/-- C4: for every Entry `e` that `parse_from_line` produces from some
line, encoding is total and `parse_from_line (db_repr e)` (at the same
clock reading) succeeds and yields an Entry equal to `e` in all fields. -/
theorem c4_parse_encode_roundtrip (line : List Char) (now : Nat) (e : Entry)
    (h : Entry.parse_from_line line now = some e) :
    Entry.parse_from_line e.db_repr now = some e := by
  rw [Entry.parse_from_line] at h
  rcases hsp : splitDelim line with
      _ | ⟨w, _ | ⟨t, _ | ⟨s3, _ | ⟨s4, _ | ⟨x5, rest6⟩⟩⟩⟩⟩ <;>
    rw [hsp] at h
  · simp at h
  · simp at h
  · have h' : some (⟨w, t, 0, 0, false⟩ : Entry) = some e := h
    rw [Option.some.injEq] at h'
    subst h'
    have hw : splitDelim w = [w] :=
      piece_free line w (by rw [hsp]; exact List.mem_cons_self _ _)
    have ht : splitDelim t = [t] :=
      piece_free line t (by rw [hsp]; exact List.mem_cons_of_mem _ (List.mem_cons_self _ _))
    have hfour := splitDelim_four w t (natRepr 0) (natRepr 0) hw ht (natRepr_free 0)
      (natRepr_free 0)
    rw [Entry.parse_from_line]
    simp only [Entry.db_repr]
    rw [hfour]
    simp only [parseU64_natRepr 0 (by decide), Option.some.injEq]
    simp [Nat.not_lt_zero]
  · simp at h
  · have h' : (match parseU64 s3, parseU64 s4 with
        | some cur_iter, some timeout =>
          some (⟨w, t, cur_iter, timeout, decide (timeout > now)⟩ : Entry)
        | _, _ => none) = some e := h
    rcases hc3 : parseU64 s3 with _ | i <;> rw [hc3] at h'
    · simp at h'
    · rcases hc4 : parseU64 s4 with _ | o <;> rw [hc4] at h'
      · simp at h'
      · simp only [Option.some.injEq] at h'
        subst h'
        have hw : splitDelim w = [w] :=
          piece_free line w (by rw [hsp]; exact List.mem_cons_self _ _)
        have ht : splitDelim t = [t] :=
          piece_free line t
            (by rw [hsp]; exact List.mem_cons_of_mem _ (List.mem_cons_self _ _))
        have hi := parseU64_lt s3 i hc3
        have ho := parseU64_lt s4 o hc4
        have hfour := splitDelim_four w t (natRepr i) (natRepr o) hw ht (natRepr_free i)
          (natRepr_free o)
        rw [Entry.parse_from_line]
        simp only [Entry.db_repr]
        rw [hfour]
        simp only [parseU64_natRepr i hi, parseU64_natRepr o ho]
  · simp at h

/-! ### Random selection -/

theorem range_fst (r : Rng) (mn mx : Nat) :
    (r.range mn mx).1 = r.state % (mx - mn + 1) + mn := by
  simp [Rng.range, Rng.rand]

theorem range_lt (r : Rng) (n : Nat) (h : n ≠ 0) : (r.range 0 (n - 1)).1 < n := by
  rw [range_fst]
  have h1 : n - 1 - 0 + 1 = n := by omega
  rw [h1]
  simpa using Nat.mod_lt _ (Nat.pos_of_ne_zero h)

theorem random_entry_spec (db : Database) :
    ((db.random_entry).1 = none ↔ db.usable = []) ∧
      (db.random_entry).2.usable = db.usable ∧
      (db.random_entry).2.unusable = db.unusable ∧
      (∀ (e : Entry) (i : Nat), (db.random_entry).1 = some (e, i) →
        i = (db.rng.range 0 (db.usable.length - 1)).1 ∧ i < db.usable.length ∧
          db.usable.get? i = some e) := by
  by_cases h0 : db.usable.length = 0
  · have hnil : db.usable = [] := List.length_eq_zero.mp h0
    rw [Database.random_entry, if_pos h0]
    refine ⟨?_, rfl, rfl, ?_⟩
    · simp [hnil]
    · intro e i h
      simp at h
  · rcases hr : db.rng.range 0 (db.usable.length - 1) with ⟨num, rng'⟩
    have hnum : num < db.usable.length := by
      have := range_lt db.rng db.usable.length h0
      rw [hr] at this
      exact this
    have hget : db.usable.get? num = some (db.usable.get ⟨num, hnum⟩) :=
      List.get?_eq_get hnum
    rw [Database.random_entry, if_neg h0]
    simp only [hr, hget]
    refine ⟨?_, trivial, trivial, ?_⟩
    · constructor
      · intro hcontra
        simp at hcontra
      · intro hnil
        exact absurd (by rw [hnil]; rfl) h0
    · intro e i h
      rw [Option.some.injEq, Prod.mk.injEq] at h
      obtain ⟨he, hi⟩ := h
      subst he
      subst hi
      exact ⟨rfl, hnum, hget⟩

/-! ### Timeout updates -/

theorem update_timeout_unusable_extends (db : Database) (index : Nat) (next : Bool)
    (now : Nat) (db2 : Database)
    (h : Database.update_timeout db index next now = some db2) :
    ∃ tl, db2.unusable = db.unusable ++ tl := by
  rw [Database.update_timeout] at h
  split at h
  · exact ⟨[], by rw [← Option.some.inj h]; simp⟩
  · split at h
    · exact ⟨[], by rw [← Option.some.inj h]; simp⟩
    · split at h
      · exact absurd h (by simp)
      · rename_i e' heq
        exact ⟨[e'], by rw [← Option.some.inj h]⟩

/-! ### Claim theorems -/

/-- C1: persist fidelity fails on the code.  The store loaded from
`c1Contents` at clock 5 holds exactly one entry, but `write_db` never
truncates the file; on this input the rewritten prefix is shorter than
the old contents, the stale tail survives, and reloading the written
file yields three entries instead of one. -/
theorem c1_persist_reload_mismatch :
    (Database.openDb c1Contents 5).usable.length +
        (Database.openDb c1Contents 5).unusable.length = 1 ∧
      (Database.openDb ((Database.openDb c1Contents 5).write_db c1Contents) 5).usable.length +
        (Database.openDb ((Database.openDb c1Contents 5).write_db c1Contents) 5).unusable.length
        = 3 := by
  exact ⟨by decide, by decide⟩

/-- C2: the iteration-index invariant fails on the code.  Parsing the
line `a;; b;; 5;; 0` succeeds and yields an entry whose `cur_iter` is 5,
which is not a valid index into the five-element `TIMEOUT_DELAYS`
table: `parse_from_line` never clamps or validates the parsed index. -/
theorem c2_parse_accepts_invalid_iteration_index :
    Entry.parse_from_line (("a;; b;; 5;; 0").data) 0 =
        some ⟨("a").data, ("b").data, 5, 0, false⟩ ∧
      ¬ (5 < TIMEOUT_DELAYS.length) := by
  exact ⟨by decide, by decide⟩

/-- C3: the no-panic contract fails on the code.  The store loaded from
the single line `a;; b;; 5;; 0` holds one usable entry accepted by the
parser, and advancing it forward indexes `TIMEOUT_DELAYS[6]`, which is
out of bounds: the source panics (embedded here as `none`). -/
theorem c3_advance_panics_on_parsed_store :
    (Database.openDb (("a;; b;; 5;; 0\n").data) 0).usable.length = 1 ∧
      Database.update_timeout (Database.openDb (("a;; b;; 5;; 0\n").data) 0) 0 true 0
        = none := by
  exact ⟨by decide, by decide⟩

/-- Witness for C4 at a concrete two-field line. -/
theorem c4_parse_encode_roundtrip_witness :
    Entry.parse_from_line
        (Entry.db_repr ⟨("a").data, ("b").data, 0, 0, false⟩) 0 =
      some ⟨("a").data, ("b").data, 0, 0, false⟩ :=
  c4_parse_encode_roundtrip (("a;; b").data) 0 _ (by decide)

/-- C5 as stated is false: the delimiter is not the two-character
string `"; "`.  Decoding `a; b` (which would be two fields under a
`"; "` split) yields no entry, and encoding a fresh entry does not
produce `a; b; 0; 0`. -/
theorem c5_delimiter_not_semicolon_space :
    Entry.parse_from_line (("a; b").data) 0 = none ∧
      Entry.db_repr ⟨("a").data, ("b").data, 0, 0, false⟩ ≠ ("a; b; 0; 0").data := by
  exact ⟨by decide, by decide⟩

/-- C5 (amended): the codec's field delimiter is the literal string
`";; "` (two semicolons and a space): encode joins the four fields with
it, and decode splits on it, so a new entry's line has the form
`word;; translation`. -/
theorem c5_delimiter_is_double_semicolon_space :
    DELIM = (";; ").data ∧
      (∀ e : Entry, e.db_repr =
        e.word ++ DELIM ++ e.tr_word ++ DELIM ++ natRepr e.cur_iter ++ DELIM ++
          natRepr e.timeout) ∧
      Entry.parse_from_line (("word;; translation").data) 0 =
        some ⟨("word").data, ("translation").data, 0, 0, false⟩ := by
  refine ⟨by decide, ?_, by decide⟩
  intro e
  simp [Entry.db_repr, List.append_assoc]

/-- C6 as stated is false: on a store with two usable entries, calling
`update_timeout` twice with the same handle 0 is not a no-op on the
second call — after the first call `swap_remove` has moved a different,
not-yet-due entry into slot 0, and the second call advances it. -/
theorem c6_second_advance_not_noop :
    (Database.update_timeout c6db 0 true 0).bind
        (fun db1 => Database.update_timeout db1 0 true 0) ≠
      Database.update_timeout c6db 0 true 0 := by
  decide

/-- C6 (amended): the due guard holds at the entry level — updating an
already-due entry changes nothing — and a second `update_timeout` never
touches the entry recorded by the first call, since entries already in
the pending partition are only ever appended after; the call is a full
no-op exactly when the handle is out of range of the shrunken available
partition. -/
theorem c6_due_guard_and_stale_handle :
    (∀ (e : Entry) (next : Bool) (now : Nat),
        e.timed_out = true → Entry.update_timeout e next now = some e) ∧
      (∀ (db : Database) (index : Nat) (next : Bool) (now : Nat) (db2 : Database),
          Database.update_timeout db index next now = some db2 →
            ∃ tl, db2.unusable = db.unusable ++ tl) ∧
      (∀ (db : Database) (index : Nat) (next : Bool) (now : Nat),
          db.usable.length ≤ index →
            Database.update_timeout db index next now = some db) := by
  refine ⟨?_, update_timeout_unusable_extends, ?_⟩
  · intro e next now h
    rw [Entry.update_timeout, if_pos h]
  · intro db index next now h
    rw [Database.update_timeout, if_pos h]

/-- Witness for C6 (amended): a due entry is left unchanged. -/
theorem c6_due_guard_witness :
    Entry.update_timeout ⟨("a").data, ("b").data, 2, 7, true⟩ true 0 =
      some ⟨("a").data, ("b").data, 2, 7, true⟩ :=
  c6_due_guard_and_stale_handle.1 ⟨("a").data, ("b").data, 2, 7, true⟩ true 0 rfl

/-- C7: `random_entry` returns `none` exactly when the usable partition
is empty, and otherwise returns a copy of the entry at the index drawn
from the deterministic RNG over `[0, usable.length - 1]`, together with
that index. -/
theorem c7_pick_due (db : Database) :
    ((db.random_entry).1 = none ↔ db.usable = []) ∧
      (∀ (e : Entry) (i : Nat), (db.random_entry).1 = some (e, i) →
        i = (db.rng.range 0 (db.usable.length - 1)).1 ∧ i < db.usable.length ∧
          db.usable.get? i = some e) :=
  ⟨(random_entry_spec db).1, (random_entry_spec db).2.2.2⟩

/-- Witness for C7 at a one-entry store. -/
theorem c7_pick_due_witness :
    0 = (oneEntryDb.rng.range 0 (oneEntryDb.usable.length - 1)).1 ∧
      0 < oneEntryDb.usable.length ∧
      oneEntryDb.usable.get? 0 = some ⟨("w").data, ("x").data, 0, 0, false⟩ :=
  (c7_pick_due oneEntryDb).2 ⟨("w").data, ("x").data, 0, 0, false⟩ 0 (by decide)

/-- C8: `update_timeout` with an out-of-range handle is a silent no-op:
it returns the store unchanged (both partitions and the RNG). -/
theorem c8_stale_handle_is_noop (db : Database) (index : Nat) (next : Bool) (now : Nat)
    (h : db.usable.length ≤ index) :
    Database.update_timeout db index next now = some db := by
  rw [Database.update_timeout, if_pos h]

/-- Witness for C8 on an empty store. -/
theorem c8_stale_handle_is_noop_witness :
    Database.update_timeout ⟨[], [], Rng.new⟩ 3 true 0 = some ⟨[], [], Rng.new⟩ :=
  c8_stale_handle_is_noop ⟨[], [], Rng.new⟩ 3 true 0 (by decide)

/-- C9: two RNGs with the same internal state (in particular, two RNGs
built by `Rng.new` from the fixed hardcoded seed) produce identical
output sequences for every sequence of `rand`/`range` calls — each
output is a pure function of the state. -/
theorem c9_rng_deterministic (r1 r2 : Rng) (calls : List RngCall)
    (h : r1.state = r2.state) :
    runCalls r1 calls = runCalls r2 calls := by
  cases r1
  cases r2
  cases h
  rfl

/-- Witness for C9 with two identically constructed RNGs. -/
theorem c9_rng_deterministic_witness :
    runCalls Rng.new [RngCall.rand, RngCall.range 0 9, RngCall.rand] =
      runCalls Rng.new [RngCall.rand, RngCall.range 0 9, RngCall.rand] :=
  c9_rng_deterministic Rng.new Rng.new [RngCall.rand, RngCall.range 0 9, RngCall.rand] rfl

/-- C10: `random_entry` never changes the usable or unusable partitions
(so the RNG state is the only component it can mutate), and any entry it
returns is a copy of the stored entry at the returned index. -/
theorem c10_random_entry_frame (db : Database) :
    (db.random_entry).2.usable = db.usable ∧
      (db.random_entry).2.unusable = db.unusable ∧
      (∀ (e : Entry) (i : Nat), (db.random_entry).1 = some (e, i) →
        db.usable.get? i = some e) :=
  ⟨(random_entry_spec db).2.1, (random_entry_spec db).2.2.1,
    fun e i h => ((random_entry_spec db).2.2.2 e i h).2.2⟩

/-- Witness for C10 at a one-entry store. -/
theorem c10_random_entry_frame_witness :
    oneEntryDb.usable.get? 0 = some ⟨("w").data, ("x").data, 0, 0, false⟩ :=
  (c10_random_entry_frame oneEntryDb).2.2 ⟨("w").data, ("x").data, 0, 0, false⟩ 0 (by decide)

end Wordpal
